import Mathlib

/-!
# Verification of the HgImporter subsystem

This file gives a shallow embedding of the mercurial importer component
declared in `src/eden/fs/store/hg/HgImporter.h` and proves the testable
properties of its specification against that embedding.

The repository only ships the header `HgImporter.h`: every declaration,
enumeration value and data-member layout below is taken from that header.
The function bodies (`HgImporter.cpp`, `hg_import_helper.py`) are not part
of the repository snapshot, so the behaviour of each operation is modelled
from the specification's description of it; each such definition carries a
doc comment saying so.
-/

namespace HgImporterModel

/-! ## Wire protocol constants, from `HgImporter.h` lines 137-179 -/

/-- Chunk header flag: the payload is an error message (`FLAG_ERROR = 0x01`). -/
def FLAG_ERROR : Nat := 1

/-- Chunk header flag: the logical response spans more chunks (`FLAG_MORE_CHUNKS = 0x02`). -/
def FLAG_MORE_CHUNKS : Nat := 2

/-- Compiled-in protocol version expected from the helper (`PROTOCOL_VERSION = 1`). -/
def PROTOCOL_VERSION : Nat := 1

/-- CMD_STARTED response flag bit: tree manifest import supported (`TREEMANIFEST_SUPPORTED = 0x01`). -/
def TREEMANIFEST_SUPPORTED : Nat := 1

/-- Command value `CMD_STARTED = 0`. -/
def CMD_STARTED : Nat := 0

/-- Command value `CMD_RESPONSE = 1`. -/
def CMD_RESPONSE : Nat := 1

/-- Command value `CMD_MANIFEST = 2`. -/
def CMD_MANIFEST : Nat := 2

/-- Command value `CMD_CAT_FILE = 3`. -/
def CMD_CAT_FILE : Nat := 3

/-- Command value `CMD_MANIFEST_NODE_FOR_COMMIT = 4`. -/
def CMD_MANIFEST_NODE_FOR_COMMIT : Nat := 4

/-- Command value `CMD_FETCH_TREE = 5`. -/
def CMD_FETCH_TREE : Nat := 5

/-- The fixed-layout chunk header preceding every message in both directions,
from `HgImporter.h` lines 174-179: four `uint32_t` fields. -/
structure ChunkHeader where
  requestID : Nat
  command : Nat
  flags : Nat
  dataLength : Nat
deriving DecidableEq, Repr

/-- A header is valid when each field fits in a `uint32_t`. -/
def ChunkHeader.valid (h : ChunkHeader) : Prop :=
  h.requestID < 2 ^ 32 ∧ h.command < 2 ^ 32 ∧ h.flags < 2 ^ 32 ∧ h.dataLength < 2 ^ 32

instance (h : ChunkHeader) : Decidable h.valid := by
  unfold ChunkHeader.valid
  infer_instance

/-! ## WireCodec

Modelled from the spec: `HgImporter.cpp` (absent from `src/`) serializes a
`ChunkHeader` as a fixed-size binary record of the four `uint32_t` fields in
declaration order, each in big-endian byte order, followed by `dataLength`
payload bytes. -/

/-- Big-endian encoding of a `uint32_t` value as four bytes. -/
def encodeU32 (n : Nat) : List Nat :=
  [n / 2 ^ 24 % 256, n / 2 ^ 16 % 256, n / 2 ^ 8 % 256, n % 256]

/-- Read one big-endian `uint32_t` from the front of a byte stream. -/
def readU32 : List Nat → Option (Nat × List Nat)
  | a :: b :: c :: d :: rest => some (((a * 256 + b) * 256 + c) * 256 + d, rest)
  | _ => none

/-- Read exactly `n` bytes from the front of a byte stream. -/
def readBytes : Nat → List Nat → Option (List Nat × List Nat)
  | 0, rest => some ([], rest)
  | _ + 1, [] => none
  | n + 1, b :: rest =>
    match readBytes n rest with
    | some (bs, r) => some (b :: bs, r)
    | none => none

/-- Modelled from the spec: `HgImporter.cpp`'s header serialization
(the `writeFull` of the request header) is not in `src/`; the header is a
fixed-size binary record of the four fields in a defined byte order. -/
def serializeChunkHeader (h : ChunkHeader) : List Nat :=
  encodeU32 h.requestID ++ encodeU32 h.command ++ encodeU32 h.flags ++ encodeU32 h.dataLength

/-- Modelled from the spec: `HgImporter.cpp`'s `readChunkHeader` byte-level
decoding is not in `src/`; it reads exactly the fixed-size header record and
rejects anything of the wrong size. -/
def deserializeChunkHeader (bytes : List Nat) : Option ChunkHeader :=
  match readU32 bytes with
  | none => none
  | some (rid, r1) =>
    match readU32 r1 with
    | none => none
    | some (cmd, r2) =>
      match readU32 r2 with
      | none => none
      | some (fl, r3) =>
        match readU32 r3 with
        | none => none
        | some (len, r4) =>
          match r4 with
          | [] => some ⟨rid, cmd, fl, len⟩
          | _ :: _ => none

/-! ## Trees and content addressing

The `Tree`, `TreeEntry` and `Hash` classes are only forward-declared in
`HgImporter.h`; their implementation is not in `src/`.  Modelled from the
spec: a Tree is an ordered sequence of entries `(name, childHash, mode)`,
canonically sorted by name, and its own store identifier is computed from its
serialized, sorted contents. -/

/-- One entry of a Tree: a path component name (as bytes), the child's store
hash, and the file mode bits. -/
structure TreeEntry where
  name : List Nat
  childHash : Nat
  mode : Nat
deriving DecidableEq, Repr

/-- Mode bits for a regular file entry. -/
def MODE_FILE : Nat := 33188

/-- Mode bits for a directory entry. -/
def MODE_DIR : Nat := 16384

/-- The canonical order on Tree entries: by name, lexicographically on the
name bytes. -/
def entryLE (a b : TreeEntry) : Prop := a.name ≤ b.name

instance : DecidableRel entryLE :=
  fun a b => inferInstanceAs (Decidable (a.name ≤ b.name))

instance : IsTotal TreeEntry entryLE := ⟨fun a b => le_total a.name b.name⟩

instance : IsTrans TreeEntry entryLE := ⟨fun _ _ _ h1 h2 => le_trans h1 h2⟩

/-- Modelled from the spec: entries are canonically sorted by name before
serialization. -/
def sortEntries (es : List TreeEntry) : List TreeEntry := List.insertionSort entryLE es

/-- Serialization of one entry inside a Tree record. -/
def serializeEntry (e : TreeEntry) : List Nat :=
  e.name ++ [256, e.childHash, e.mode, 257]

/-- Serialization of a Tree from an already-ordered entry list. -/
def serializeTree (es : List TreeEntry) : List Nat :=
  (es.map serializeEntry).flatten

/-- Modelled from the spec: the store's content hash of a byte string; a
deterministic digest into the store's fixed-width (20-byte) hash space. -/
def hashBytes (bs : List Nat) : Nat :=
  bs.foldl (fun h b => (h * 33 + b + 1) % (2 ^ 160)) 5381

/-- The store identifier of a Tree: the digest of its serialized, canonically
sorted contents. -/
def treeHash (es : List TreeEntry) : Nat :=
  hashBytes (serializeTree (sortEntries es))

/-! ## Error taxonomy (spec section 7) -/

/-- Operation-scoped import errors surfaced to callers. -/
inductive ImporterError where
  | helperError : List Nat → ImporterError
  | malformedResponse : ImporterError
  | notFound : ImporterError
  | treeManifestUnavailable : ImporterError
deriving DecidableEq, Repr

/-- Modelled from the spec: `HgImporter.cpp`'s `readChunkHeader` body is absent
from `src/`; per the header doc comment (`HgImporter.h` lines 212-217), if the
header indicates an error it reads the full error message and throws.  The
model delivers the payload of a successful chunk, and surfaces a `HelperError`
carrying exactly the payload bytes when `FLAG_ERROR` is set. -/
def processResponseChunk (hdr : ChunkHeader) (payload : List Nat) :
    Except ImporterError (List Nat) :=
  if Nat.land hdr.flags FLAG_ERROR ≠ 0 then Except.error (ImporterError.helperError payload)
  else Except.ok payload

/-! ## Handshake and capability negotiation -/

/-- Importer options parsed from the CMD_STARTED response, from `HgImporter.h`
lines 188-194: the paths to the treemanifest pack directories; if the vector is
empty, treemanifest import should not be used. -/
structure Options where
  treeManifestPackPaths : List (List Nat)
deriving DecidableEq, Repr

/-- Read `n` length-prefixed byte strings from the front of a byte stream. -/
def readPaths : Nat → List Nat → Option (List (List Nat) × List Nat)
  | 0, rest => some ([], rest)
  | n + 1, bytes =>
    match readU32 bytes with
    | none => none
    | some (len, r1) =>
      match readBytes len r1 with
      | none => none
      | some (p, r2) =>
        match readPaths n r2 with
        | none => none
        | some (ps, r3) => some (p :: ps, r3)

/-- Modelled from the spec: `HgImporter.cpp`'s parsing of the CMD_STARTED
capability bits is absent from `src/`; the pack paths enter the Options only
when the helper announces `TREEMANIFEST_SUPPORTED`. -/
def buildOptions (flags : Nat) (paths : List (List Nat)) : Options :=
  if Nat.land flags TREEMANIFEST_SUPPORTED ≠ 0 then ⟨paths⟩ else ⟨[]⟩

/-- Outcome of the startup handshake. -/
inductive StartResult where
  | ok : Options → StartResult
  | protocolVersionError : Nat → StartResult
  | handshakeError : StartResult
deriving DecidableEq, Repr

/-- Modelled from the spec: `HgImporter.cpp`'s `waitForHelperStart` body is
absent from `src/` (only declared, `HgImporter.h` lines 222-228).  The first
response must be a CMD_STARTED chunk; its payload encodes the protocol
version, the capability flags and the count-prefixed list of length-prefixed
pack paths.  A version other than `PROTOCOL_VERSION` is a fatal
ProtocolVersionError; a missing or garbled CMD_STARTED is a fatal
HandshakeError. -/
def waitForHelperStart (hdr : ChunkHeader) (payload : List Nat) : StartResult :=
  if hdr.command = CMD_STARTED ∧ Nat.land hdr.flags FLAG_ERROR = 0 then
    match readU32 payload with
    | none => StartResult.handshakeError
    | some (version, r1) =>
      if version = PROTOCOL_VERSION then
        match readU32 r1 with
        | none => StartResult.handshakeError
        | some (flags, r2) =>
          match readU32 r2 with
          | none => StartResult.handshakeError
          | some (count, r3) =>
            match readPaths count r3 with
            | none => StartResult.handshakeError
            | some (paths, r4) =>
              match r4 with
              | [] => StartResult.ok (buildOptions flags paths)
              | _ :: _ => StartResult.handshakeError
      else StartResult.protocolVersionError version
  else StartResult.handshakeError

/-! ## Strategy dispatch (Importer facade) -/

/-- The ordered union of local datapack stores (PackUnionStore). -/
structure UnionStore where
  packPaths : List (List Nat)
deriving DecidableEq, Repr

/-- Modelled from the spec: `HgImporter.cpp`'s `initializeTreeManifestImport`
body is absent from `src/` (only declared, `HgImporter.h` lines 230-236); it
leaves the union store null when treemanifest import is not supported, i.e.
when the pack path list is empty. -/
def initTreeManifestImport (opts : Options) : Option UnionStore :=
  match opts.treeManifestPackPaths with
  | [] => none
  | p :: ps => some ⟨p :: ps⟩

/-- The two mutually substitutable import strategies. -/
inductive Strategy where
  | flatManifest : Strategy
  | treeManifest : Strategy
deriving DecidableEq, Repr

/-- Modelled from the spec: `importManifest` (declared `HgImporter.h` line 67)
automatically chooses the mechanism: the tree-manifest strategy when the union
store was initialized, else the flat-manifest strategy. -/
def importManifestStrategy (unionStore : Option UnionStore) : Strategy :=
  match unionStore with
  | some _ => Strategy.treeManifest
  | none => Strategy.flatManifest

/-! ## TreeImporter: recursive tree-manifest resolution

`HgImporter.h` lines 260-264 declare
`importTreeImpl(manifestNode, edenTreeID, path, writeBatch)`; its body is
absent from `src/`.  Modelled from the spec: resolving a manifest node looks
it up in the per-operation resolution cache first; on a miss it fetches the
node's entries (pack store or remote — both count as one fetch here),
recursively resolves subdirectory entries, uses file content hashes verbatim,
assembles the Tree, computes its store hash, stages the serialized Tree into
the WriteBatch, and records the node in the cache. -/

/-- One entry of a mercurial tree-manifest: a path component name, the
mercurial node (for a subdirectory) or the content hash (for a file), and
whether it denotes a directory. -/
structure MEntry where
  name : List Nat
  node : Nat
  isDir : Bool
deriving DecidableEq, Repr

/-- The per-operation state: the resolution cache keyed by manifest node, the
number of fetches issued so far, and the WriteBatch of staged
(hash, serialized tree) writes. -/
structure ResolveState where
  cache : List (Nat × Nat)
  fetchCount : Nat
  batch : List (Nat × List Nat)
deriving DecidableEq, Repr

/-- First-match lookup in the resolution cache. -/
def lookupCache : List (Nat × Nat) → Nat → Option Nat
  | [], _ => none
  | (k, v) :: rest, node => if k = node then some v else lookupCache rest node

mutual

/-- Modelled from the spec: the recursive resolution step of `importTreeImpl`
(absent from `src/`).  `env` maps a manifest node to its fetched entries;
`fuel` bounds the recursion so the function is total on arbitrary inputs. -/
def resolveNode (env : Nat → Option (List MEntry)) :
    Nat → Nat → ResolveState → Option (Nat × ResolveState)
  | 0, _, _ => none
  | fuel + 1, node, st =>
    match lookupCache st.cache node with
    | some h => some (h, st)
    | none =>
      match env node with
      | none => none
      | some mentries =>
        match resolveEntries env fuel mentries ⟨st.cache, st.fetchCount + 1, st.batch⟩ with
        | none => none
        | some (tes, st1) =>
          some (treeHash tes,
            ⟨(node, treeHash tes) :: st1.cache, st1.fetchCount,
              (treeHash tes, serializeTree (sortEntries tes)) :: st1.batch⟩)

/-- Modelled from the spec: resolving the entry list of one fetched manifest:
subdirectory entries are resolved recursively to their store hashes, file
entries use the transported content hash verbatim. -/
def resolveEntries (env : Nat → Option (List MEntry)) :
    Nat → List MEntry → ResolveState → Option (List TreeEntry × ResolveState)
  | _, [], st => some ([], st)
  | 0, _ :: _, _ => none
  | fuel + 1, e :: rest, st =>
    if e.isDir then
      match resolveNode env fuel e.node st with
      | none => none
      | some (h, st1) =>
        match resolveEntries env fuel rest st1 with
        | none => none
        | some (tes, st2) => some (TreeEntry.mk e.name h MODE_DIR :: tes, st2)
    else
      match resolveEntries env fuel rest st with
      | none => none
      | some (tes, st2) => some (TreeEntry.mk e.name e.node MODE_FILE :: tes, st2)

end

/-- A one-directory remote world: manifest node 0 is an empty directory,
everything else is absent. -/
def exampleEnv : Nat → Option (List MEntry) :=
  fun n => if n = 0 then some [] else none

/-! ## ManifestImporter: the flat strategy

`HgImporter.h` lines 208-211 declare `readManifestEntry(importer, cursor,
writeBatch)` and the `HgManifestImporter` helper class is only
forward-declared; the bodies are absent from `src/`.  Modelled from the spec:
the flat strategy consumes the streamed `(path, entryHash, flags)` entries and
builds the directory hierarchy bottom-up, grouping entries by parent
directory, finalizing each directory into a Tree, and propagating its hash
upward; the root Tree's hash is the result. -/

/-- The first path component of every streamed entry that has one. -/
def headsOf (entries : List (List (List Nat) × Nat)) : List (List Nat) :=
  entries.filterMap (fun ph => ph.1.head?)

/-- Deduplicate, keeping the first occurrence of each element. -/
def dedupKeepFirst : List (List Nat) → List (List Nat)
  | [] => []
  | a :: l => a :: (dedupKeepFirst l).filter (fun x => x ≠ a)

/-- Strip the expected top-level component from one streamed entry's path;
`none` when the entry lies elsewhere. -/
def stripTop (n : List Nat) (ph : List (List Nat) × Nat) :
    Option (List (List Nat) × Nat) :=
  match ph.1 with
  | [] => none
  | c :: rest => if c = n then some (rest, ph.2) else none

/-- The entries lying under top-level component `n`, with that component
stripped from their paths. -/
def subEntries (n : List Nat) (entries : List (List (List Nat) × Nat)) :
    List (List (List Nat) × Nat) :=
  entries.filterMap (stripTop n)

/-- Detect the sub-stream shape of a plain file: exactly one entry with an
exhausted path. -/
def isSingleFile : List (List (List Nat) × Nat) → Option Nat
  | [([], h)] => some h
  | _ => none

/-- Modelled from the spec: the bottom-up hierarchy builder of the flat
strategy.  Each distinct top-level component becomes one entry of the current
directory: a file entry keeps its streamed content hash, a subdirectory is
built recursively and contributes its computed Tree hash.  `fuel` bounds the
path depth so the function is total on arbitrary inputs. -/
def buildTree : Nat → List (List (List Nat) × Nat) → List TreeEntry
  | 0, _ => []
  | fuel + 1, entries =>
    (dedupKeepFirst (headsOf entries)).map (fun n =>
      match isSingleFile (subEntries n entries) with
      | some h => TreeEntry.mk n h MODE_FILE
      | none => TreeEntry.mk n (treeHash (buildTree fuel (subEntries n entries))) MODE_DIR)

/-- The serialized Trees staged into the WriteBatch while the flat strategy
builds the hierarchy: one per finalized directory, the current one first. -/
def flatStagedTrees : Nat → List (List (List Nat) × Nat) → List (Nat × List Nat)
  | 0, _ => []
  | fuel + 1, entries =>
    (treeHash (buildTree (fuel + 1) entries),
        serializeTree (sortEntries (buildTree (fuel + 1) entries))) ::
      ((dedupKeepFirst (headsOf entries)).map (fun n =>
        match isSingleFile (subEntries n entries) with
        | some _ => []
        | none => flatStagedTrees fuel (subEntries n entries))).flatten

/-! ## A common ground truth: the revision's directory tree

To compare the two strategies, a revision's content is a finite directory
tree; the flat strategy consumes its flattened file listing, the tree
strategy walks it recursively. -/

mutual

/-- A filesystem object at a revision: a file with its content hash, or a
directory. -/
inductive FsEntry : Type where
  | file : Nat → FsEntry
  | dir : FsList → FsEntry
deriving DecidableEq

/-- The named children of a directory, in stream order. -/
inductive FsList : Type where
  | nil : FsList
  | cons : List Nat → FsEntry → FsList → FsList
deriving DecidableEq

end

/-- The mode bits of a filesystem object. -/
def modeOf : FsEntry → Nat
  | FsEntry.file _ => MODE_FILE
  | FsEntry.dir _ => MODE_DIR

/-- The child names of a directory, in order. -/
def namesOf : FsList → List (List Nat)
  | FsList.nil => []
  | FsList.cons n _ rest => n :: namesOf rest

mutual

/-- Modelled from the spec: the tree-manifest strategy's store hash of one
filesystem object — a file keeps its transported content hash verbatim, a
directory's hash is computed from its assembled, canonically sorted Tree. -/
def storeHashE : FsEntry → Nat
  | FsEntry.file h => h
  | FsEntry.dir l => treeHash (entriesOf l)

/-- The Tree entries of a directory under the tree-manifest strategy. -/
def entriesOf : FsList → List TreeEntry
  | FsList.nil => []
  | FsList.cons n e rest => TreeEntry.mk n (storeHashE e) (modeOf e) :: entriesOf rest

end

mutual

/-- The flat-manifest file listing of one named filesystem object: every file
under it, with its full component path and content hash, in stream order. -/
def flattenE (n : List Nat) : FsEntry → List (List (List Nat) × Nat)
  | FsEntry.file h => [([n], h)]
  | FsEntry.dir l => (flattenL l).map (fun ph => (n :: ph.1, ph.2))

/-- The flat-manifest file listing of a directory's children. -/
def flattenL : FsList → List (List (List Nat) × Nat)
  | FsList.nil => []
  | FsList.cons n e rest => flattenE n e ++ flattenL rest

end

mutual

/-- Wellformedness of a filesystem object: directories are non-empty (a flat
manifest lists only files, so empty directories cannot occur). -/
def wfE : FsEntry → Bool
  | FsEntry.file _ => true
  | FsEntry.dir l => !(namesOf l).isEmpty && wfL l

/-- Wellformedness of a directory's children: names are pairwise distinct and
every child is wellformed. -/
def wfL : FsList → Bool
  | FsList.nil => true
  | FsList.cons n e rest => wfE e && !(decide (n ∈ namesOf rest)) && wfL rest

end

mutual

/-- The height of a filesystem object (files have height 0). -/
def heightE : FsEntry → Nat
  | FsEntry.file _ => 0
  | FsEntry.dir l => heightL l + 1

/-- The height of a directory's children. -/
def heightL : FsList → Nat
  | FsList.nil => 0
  | FsList.cons _ e rest => max (heightE e) (heightL rest)

end

/-- Modelled from the spec: the root Tree hash computed by
`importFlatManifest` (declared `HgImporter.h` line 87, body absent) from the
streamed manifest entries. -/
def importFlatManifestRoot (fuel : Nat) (entries : List (List (List Nat) × Nat)) : Nat :=
  treeHash (buildTree fuel entries)

/-- Modelled from the spec: the root Tree hash computed by
`importTreeManifest` (declared `HgImporter.h` line 77, body absent) by
recursive tree resolution over the same revision. -/
def importTreeManifestRoot (l : FsList) : Nat :=
  treeHash (entriesOf l)

/-- The spec's worked example: files `a/x`, `a/y` and `b` with content hashes
11, 22, 33. -/
def exampleRevision : FsList :=
  FsList.cons [97]
    (FsEntry.dir (FsList.cons [120] (FsEntry.file 11)
      (FsList.cons [121] (FsEntry.file 22) FsList.nil)))
    (FsList.cons [98] (FsEntry.file 33) FsList.nil)

/-! ## ObjectStore and WriteBatch atomicity

The ObjectStore collaborator is consumed through `LocalStore` /
`LocalStore::WriteBatch` (`HgImporter.h` lines 208-211, 260-268); its storage
engine is out of scope.  Modelled from the spec: a batched key-value store
whose WriteBatch is flushed atomically per import operation. -/

/-- The object store: committed (hash, bytes) objects. -/
structure ObjectStore where
  objects : List (Nat × List Nat)
deriving DecidableEq, Repr

/-- Committing a WriteBatch adds every staged write to the store. -/
def flushBatch (store : ObjectStore) (batch : List (Nat × List Nat)) : ObjectStore :=
  ⟨batch ++ store.objects⟩

/-- Modelled from the spec: each public import operation accumulates its
writes in a WriteBatch scoped to that operation and leaves it either fully
flushed (on success) or fully discarded (on error); the store is never
touched on an error path. -/
def runImportOp (store : ObjectStore)
    (op : Except ImporterError (Nat × List (Nat × List Nat))) :
    Except ImporterError Nat × ObjectStore :=
  match op with
  | Except.ok (h, batch) => (Except.ok h, flushBatch store batch)
  | Except.error e => (Except.error e, store)

/-- Concatenate the payloads of a response chunk sequence, surfacing a
HelperError if any chunk has the ERROR flag set. -/
def collectManifestPayload : List (ChunkHeader × List Nat) → Except ImporterError (List Nat)
  | [] => Except.ok []
  | (hdr, payload) :: rest =>
    match processResponseChunk hdr payload with
    | Except.error e => Except.error e
    | Except.ok bytes =>
      match collectManifestPayload rest with
      | Except.error e => Except.error e
      | Except.ok bs => Except.ok (bytes ++ bs)

/-- Split a path byte string into its components at the separator byte 47. -/
def splitPath : List Nat → List (List Nat)
  | [] => [[]]
  | b :: rest =>
    match splitPath rest with
    | [] => [[b]]
    | c :: cs => if b = 47 then [] :: c :: cs else (b :: c) :: cs

/-- Modelled from the spec: decode the streamed manifest entries from the
concatenated payload bytes: each entry is a length-prefixed path followed by
its `uint32_t` content hash.  `fuel` bounds the iteration so the decoder is
total; the caller passes the byte count, which always suffices. -/
def decodeFlatEntriesAux : Nat → List Nat → Option (List (List (List Nat) × Nat))
  | _, [] => some []
  | 0, _ :: _ => none
  | fuel + 1, bytes =>
    match readU32 bytes with
    | none => none
    | some (plen, r1) =>
      match readBytes plen r1 with
      | none => none
      | some (pbytes, r2) =>
        match readU32 r2 with
        | none => none
        | some (h, r3) =>
          match decodeFlatEntriesAux fuel r3 with
          | none => none
          | some es => some ((splitPath pbytes, h) :: es)

/-- Modelled from the spec: the full `importFlatManifest` operation (declared
`HgImporter.h` line 87, body absent): consume the manifest response chunks,
decode the entry stream, build the hierarchy bottom-up and stage every
finalized Tree into the operation's WriteBatch. -/
def importFlatManifestOp (fuel : Nat) (chunks : List (ChunkHeader × List Nat)) :
    Except ImporterError (Nat × List (Nat × List Nat)) :=
  match collectManifestPayload chunks with
  | Except.error e => Except.error e
  | Except.ok bytes =>
    match decodeFlatEntriesAux bytes.length bytes with
    | none => Except.error ImporterError.malformedResponse
    | some entries =>
      Except.ok (importFlatManifestRoot fuel entries, flatStagedTrees fuel entries)

/-- Modelled from the spec: the full `importTreeManifest` operation (declared
`HgImporter.h` line 77, body absent): resolve the root manifest node
recursively, staging every built Tree into the operation's WriteBatch. -/
def importTreeManifestOp (env : Nat → Option (List MEntry)) (fuel rootNode : Nat) :
    Except ImporterError (Nat × List (Nat × List Nat)) :=
  match resolveNode env fuel rootNode ⟨[], 0, []⟩ with
  | none => Except.error ImporterError.notFound
  | some (h, st) => Except.ok (h, st.batch)

/-- Modelled from the spec: `importTree` (declared `HgImporter.h` line 109,
body absent): requires tree-manifest data to be available, then resolves the
single requested tree. -/
def importTreeOp (unionStore : Option UnionStore) (env : Nat → Option (List MEntry))
    (fuel node : Nat) : Except ImporterError (Nat × List (Nat × List Nat)) :=
  match unionStore with
  | none => Except.error ImporterError.treeManifestUnavailable
  | some _ => importTreeManifestOp env fuel node

/-! ## ProcessBridge request/response discipline

`HgImporter.h` line 269 declares the counter `uint32_t nextRequestID_{0}`.
The send/receive bodies are absent from `src/`, so the request/response
discipline is modelled from the spec: one outstanding request at a time,
every sent request uses the next counter value, and a response is accepted
only when its requestID equals the most recently sent request's ID. -/

/-- The transport state of one bridge instance: the counter owned by the
component and the requestID of the outstanding request, if any. -/
structure BridgeState where
  nextRequestID : Nat
  inFlight : Option Nat
deriving DecidableEq, Repr

/-- The state of a freshly constructed instance: counter 0, nothing in
flight. -/
def initialBridgeState : BridgeState := ⟨0, none⟩

/-- Modelled from the spec: sending a request uses the next counter value as
its requestID and bumps the counter; sending is refused while another request
is outstanding. -/
def sendRequest (s : BridgeState) : Option (Nat × BridgeState) :=
  match s.inFlight with
  | some _ => none
  | none => some (s.nextRequestID, ⟨s.nextRequestID + 1, some s.nextRequestID⟩)

/-- Modelled from the spec: receiving a response asserts that the requestID
found in it matches the ID of the most recently sent request; any other ID, or
a response with no request outstanding, is rejected. -/
def receiveResponse (s : BridgeState) (respID : Nat) : Option BridgeState :=
  match s.inFlight with
  | none => none
  | some rid => if respID = rid then some ⟨s.nextRequestID, none⟩ else none

/-- One interaction on the bridge: sending a request or receiving a response
carrying the given requestID. -/
inductive BridgeEvent where
  | send : BridgeEvent
  | recv : Nat → BridgeEvent
deriving DecidableEq, Repr

/-- Run a sequence of bridge events, returning the final state and the
requestIDs assigned to the sent requests, in order; `none` when the discipline
was violated. -/
def runBridge (s : BridgeState) : List BridgeEvent → Option (BridgeState × List Nat)
  | [] => some (s, [])
  | BridgeEvent.send :: evs =>
    match sendRequest s with
    | none => none
    | some (id, s1) =>
      match runBridge s1 evs with
      | none => none
      | some (t, ids) => some (t, id :: ids)
  | BridgeEvent.recv r :: evs =>
    match receiveResponse s r with
    | none => none
    | some s1 => runBridge s1 evs

/-! ## Theorems -/

/-- Reading a `uint32_t` back from its big-endian encoding recovers the value. -/
theorem readU32_encodeU32 (n : Nat) (hn : n < 2 ^ 32) (rest : List Nat) :
    readU32 (encodeU32 n ++ rest) = some (n, rest) := by
  simp only [encodeU32, List.cons_append, List.nil_append, readU32, Option.some.injEq,
    Prod.mk.injEq, and_true]
  omega

/-- Variant of `readU32_encodeU32` when the encoded value ends the stream. -/
theorem readU32_encodeU32_nil (n : Nat) (hn : n < 2 ^ 32) :
    readU32 (encodeU32 n) = some (n, []) := by
  have := readU32_encodeU32 n hn []
  simpa using this

/-- C9: for every valid ChunkHeader `h` (the fixed-layout record of requestID,
command, flags, dataLength, each a `uint32_t`), decoding the encoding of `h`
yields `h`: `decode(encode(h)) = h`. -/
theorem chunkHeader_roundtrip (h : ChunkHeader) (hv : h.valid) :
    deserializeChunkHeader (serializeChunkHeader h) = some h := by
  obtain ⟨h1, h2, h3, h4⟩ := hv
  simp only [serializeChunkHeader, List.append_assoc, deserializeChunkHeader,
    readU32_encodeU32 _ h1, readU32_encodeU32 _ h2, readU32_encodeU32 _ h3,
    readU32_encodeU32_nil _ h4]

/-- Witness for C9: the round-trip theorem applied to a concrete header. -/
theorem chunkHeader_roundtrip_witness :
    (ChunkHeader.mk 5 2 2 100).valid ∧
      deserializeChunkHeader (serializeChunkHeader ⟨5, 2, 2, 100⟩) = some ⟨5, 2, 2, 100⟩ :=
  ⟨by decide, chunkHeader_roundtrip ⟨5, 2, 2, 100⟩ (by decide)⟩

/-- C3: a response chunk whose header has the ERROR flag set is never
delivered as successful response data; it surfaces as a HelperError carrying
exactly the message bytes of the payload.  Conversely any successfully
delivered payload comes from a chunk without the ERROR flag. -/
theorem errorChunk_surfaces_helperError :
    (∀ hdr payload, Nat.land hdr.flags FLAG_ERROR ≠ 0 →
      processResponseChunk hdr payload = Except.error (ImporterError.helperError payload))
    ∧ (∀ hdr payload data, processResponseChunk hdr payload = Except.ok data →
      Nat.land hdr.flags FLAG_ERROR = 0 ∧ data = payload) := by
  constructor
  · intro hdr payload h
    simp [processResponseChunk, h]
  · intro hdr payload data h
    by_cases hf : Nat.land hdr.flags FLAG_ERROR = 0
    · simp [processResponseChunk, hf] at h
      exact ⟨hf, h.symm⟩
    · simp [processResponseChunk, hf] at h

/-- Witness for C3: a concrete ERROR-flagged chunk surfaces its payload bytes
as a HelperError. -/
theorem errorChunk_surfaces_helperError_witness :
    processResponseChunk ⟨7, 1, 1, 2⟩ [104, 105] =
      Except.error (ImporterError.helperError [104, 105]) :=
  errorChunk_surfaces_helperError.1 ⟨7, 1, 1, 2⟩ [104, 105] (by decide)

/-- C4: the first response must be a CMD_STARTED chunk; a CMD_STARTED that
announces a protocol version different from the compiled-in PROTOCOL_VERSION
fails with a fatal ProtocolVersionError, a response that is not CMD_STARTED
fails with a fatal HandshakeError, and a malformed (truncated) payload fails
with a fatal HandshakeError. -/
theorem helperStart_version_and_handshake :
    (∀ hdr payload v r1, hdr.command = CMD_STARTED → Nat.land hdr.flags FLAG_ERROR = 0 →
      readU32 payload = some (v, r1) → v ≠ PROTOCOL_VERSION →
      waitForHelperStart hdr payload = StartResult.protocolVersionError v)
    ∧ (∀ hdr payload, hdr.command ≠ CMD_STARTED →
      waitForHelperStart hdr payload = StartResult.handshakeError)
    ∧ (∀ hdr payload, readU32 payload = none →
      waitForHelperStart hdr payload = StartResult.handshakeError) := by
  refine ⟨?_, ?_, ?_⟩
  · intro hdr payload v r1 hc hf hr hv
    simp [waitForHelperStart, hc, hf, hr, hv]
  · intro hdr payload hc
    simp [waitForHelperStart, hc]
  · intro hdr payload hr
    by_cases hc : hdr.command = CMD_STARTED ∧ Nat.land hdr.flags FLAG_ERROR = 0
    · simp [waitForHelperStart, hc, hr]
    · simp [waitForHelperStart, hc]

/-- Witness for C4: a concrete CMD_STARTED chunk announcing version 2 fails
with ProtocolVersionError 2. -/
theorem helperStart_version_and_handshake_witness :
    waitForHelperStart ⟨0, 0, 0, 4⟩ [0, 0, 0, 2] = StartResult.protocolVersionError 2 :=
  helperStart_version_and_handshake.1 ⟨0, 0, 0, 4⟩ [0, 0, 0, 2] 2 [] rfl (by decide)
    (by decide) (by decide)

/-- C6: when the CMD_STARTED response reports tree-manifest import as
unsupported, every importManifest call routes through the flat-manifest
strategy even if the announced pack paths are non-empty; and whenever the
resulting pack path list is empty the flat strategy is used unconditionally. -/
theorem importManifest_flat_when_unsupported :
    (∀ flags paths, Nat.land flags TREEMANIFEST_SUPPORTED = 0 →
      importManifestStrategy (initTreeManifestImport (buildOptions flags paths)) =
        Strategy.flatManifest)
    ∧ (∀ flags, importManifestStrategy (initTreeManifestImport (buildOptions flags [])) =
        Strategy.flatManifest) := by
  constructor
  · intro flags paths h
    simp [buildOptions, h, initTreeManifestImport, importManifestStrategy]
  · intro flags
    by_cases h : Nat.land flags TREEMANIFEST_SUPPORTED = 0 <;>
      simp [buildOptions, h, initTreeManifestImport, importManifestStrategy]

/-- Witness for C6: with capability flags 2 (support bit clear) and one
non-empty pack path, the dispatch still selects the flat strategy. -/
theorem importManifest_flat_when_unsupported_witness :
    importManifestStrategy (initTreeManifestImport (buildOptions 2 [[120]])) =
      Strategy.flatManifest :=
  importManifest_flat_when_unsupported.1 2 [[120]] (by decide)

/-- In any successful run of the bridge, the assigned requestIDs form a
strictly increasing chain, all bounded below by the starting counter. -/
theorem runBridge_ids_increasing (evs : List BridgeEvent) :
    ∀ s t ids, runBridge s evs = some (t, ids) →
      List.Chain' (fun a b => a < b) ids ∧ ∀ i ∈ ids, s.nextRequestID ≤ i := by
  induction evs with
  | nil =>
    intro s t ids h
    simp only [runBridge, Option.some.injEq, Prod.mk.injEq] at h
    obtain ⟨-, h2⟩ := h
    subst h2
    simp
  | cons ev evs ih =>
    intro s t ids h
    cases ev with
    | send =>
      cases hin : s.inFlight with
      | some rid => simp [runBridge, sendRequest, hin] at h
      | none =>
        simp only [runBridge, sendRequest, hin] at h
        cases hr : runBridge ⟨s.nextRequestID + 1, some s.nextRequestID⟩ evs with
        | none => rw [hr] at h; simp at h
        | some p =>
          obtain ⟨t0, ids0⟩ := p
          rw [hr] at h
          simp only [Option.some.injEq, Prod.mk.injEq] at h
          obtain ⟨-, h2⟩ := h
          subst h2
          obtain ⟨hchain, hbound⟩ := ih _ _ _ hr
          constructor
          · rw [List.chain'_cons']
            refine ⟨?_, hchain⟩
            intro b hb
            have hmem : b ∈ ids0 := List.mem_of_mem_head? hb
            have hb2 : s.nextRequestID + 1 ≤ b := hbound b hmem
            omega
          · intro i hi
            rcases List.mem_cons.mp hi with h1 | h1
            · omega
            · have h2 : s.nextRequestID + 1 ≤ i := hbound i h1
              omega
    | recv r =>
      cases hin : s.inFlight with
      | none => simp [runBridge, receiveResponse, hin] at h
      | some rid =>
        by_cases hr : r = rid
        · subst hr
          simp [runBridge, receiveResponse, hin] at h
          exact ih ⟨s.nextRequestID, none⟩ t ids h
        · simp [runBridge, receiveResponse, hin, hr] at h

/-- C5: within one instance, requestIDs assigned to sent requests are strictly
increasing; a request can only be sent when no request is outstanding (at most
one in flight); and a received response is accepted only when its requestID
equals that of the most recently sent request. -/
theorem requestID_discipline :
    (∀ evs t ids, runBridge initialBridgeState evs = some (t, ids) →
      List.Chain' (fun a b => a < b) ids)
    ∧ (∀ s id s1, sendRequest s = some (id, s1) →
      s.inFlight = none ∧ id = s.nextRequestID ∧ s1 = ⟨s.nextRequestID + 1, some id⟩)
    ∧ (∀ s r s1, receiveResponse s r = some s1 → s.inFlight = some r) := by
  refine ⟨?_, ?_, ?_⟩
  · intro evs t ids h
    exact (runBridge_ids_increasing evs _ _ _ h).1
  · intro s id s1 h
    cases hin : s.inFlight with
    | some rid => simp [sendRequest, hin] at h
    | none =>
      simp only [sendRequest, hin, Option.some.injEq, Prod.mk.injEq] at h
      obtain ⟨h1, h2⟩ := h
      subst h1
      exact ⟨rfl, rfl, h2.symm⟩
  · intro s r s1 h
    cases hin : s.inFlight with
    | none => simp [receiveResponse, hin] at h
    | some rid =>
      by_cases hr : r = rid
      · subst hr; rfl
      · simp [receiveResponse, hin, hr] at h

/-- Witness for C5: a concrete alternating run assigns the strictly increasing
IDs 0 and 1, a send from an idle state, and a response matching the in-flight
ID. -/
theorem requestID_discipline_witness :
    List.Chain' (fun a b => a < b) [0, 1]
    ∧ (BridgeState.mk 3 none).inFlight = none
    ∧ (BridgeState.mk 4 (some 3)).inFlight = some 3 :=
  ⟨requestID_discipline.1
      [BridgeEvent.send, BridgeEvent.recv 0, BridgeEvent.send, BridgeEvent.recv 1]
      ⟨2, none⟩ [0, 1] (by decide),
    (requestID_discipline.2.1 ⟨3, none⟩ 3 ⟨4, some 3⟩ (by decide)).1,
    requestID_discipline.2.2 ⟨4, some 3⟩ 3 ⟨4, none⟩ (by decide)⟩

/-- Two entry lists that are permutations of each other, both sorted by name,
and whose names are pairwise distinct, are equal. -/
theorem sorted_perm_nodupNames_eq :
    ∀ l1 l2 : List TreeEntry, List.Perm l1 l2 → List.Sorted entryLE l1 →
      List.Sorted entryLE l2 → (l1.map TreeEntry.name).Nodup → l1 = l2 := by
  intro l1
  induction l1 with
  | nil =>
    intro l2 hp _ _ _
    exact hp.nil_eq
  | cons a t1 ih =>
    intro l2 hp hs1 hs2 hn
    cases l2 with
    | nil =>
      exact absurd hp.symm.nil_eq (by simp)
    | cons b t2 =>
      have hab : a ∈ b :: t2 := hp.subset (List.mem_cons_self a t1)
      have hba : b ∈ a :: t1 := hp.symm.subset (List.mem_cons_self b t2)
      simp only [List.map_cons, List.nodup_cons] at hn
      have hEq : a = b := by
        rcases List.mem_cons.mp hab with h1 | h1
        · exact h1
        · rcases List.mem_cons.mp hba with h2 | h2
          · exact h2.symm
          · exfalso
            have e1 : entryLE a b := (List.sorted_cons.mp hs1).1 b h2
            have e2 : entryLE b a := (List.sorted_cons.mp hs2).1 a h1
            have hname : a.name = b.name := le_antisymm e1 e2
            exact hn.1 (hname ▸ List.mem_map_of_mem TreeEntry.name h2)
      subst hEq
      have hp' : List.Perm t1 t2 := hp.cons_inv
      have := ih t2 hp' (List.sorted_cons.mp hs1).2 (List.sorted_cons.mp hs2).2 hn.2
      rw [this]

/-- C8: for every set of Tree entries with pairwise distinct names, the
computed Tree content hash does not depend on the order in which the entries
were inserted: any permutation of the entry list yields the identical Tree
hash, because the entries are canonically sorted by name before hashing. -/
theorem treeHash_insertion_order_independent (l1 l2 : List TreeEntry)
    (hp : List.Perm l1 l2) (hn : (l1.map TreeEntry.name).Nodup) :
    treeHash l1 = treeHash l2 := by
  have hs1 : List.Sorted entryLE (sortEntries l1) := List.sorted_insertionSort entryLE l1
  have hs2 : List.Sorted entryLE (sortEntries l2) := List.sorted_insertionSort entryLE l2
  have hperm : List.Perm (sortEntries l1) (sortEntries l2) :=
    (List.perm_insertionSort entryLE l1).trans (hp.trans (List.perm_insertionSort entryLE l2).symm)
  have hnd : ((sortEntries l1).map TreeEntry.name).Nodup := by
    have hm : List.Perm ((sortEntries l1).map TreeEntry.name) (l1.map TreeEntry.name) :=
      (List.perm_insertionSort entryLE l1).map TreeEntry.name
    exact hm.nodup_iff.mpr hn
  have hsEq := sorted_perm_nodupNames_eq (sortEntries l1) (sortEntries l2) hperm hs1 hs2 hnd
  unfold treeHash
  rw [hsEq]

/-- Witness for C8: two insertion orders of the same two-entry set produce the
same Tree hash. -/
theorem treeHash_insertion_order_independent_witness :
    List.Perm [TreeEntry.mk [98] 7 33188, TreeEntry.mk [97] 9 33188]
      [TreeEntry.mk [97] 9 33188, TreeEntry.mk [98] 7 33188]
    ∧ treeHash [TreeEntry.mk [98] 7 33188, TreeEntry.mk [97] 9 33188] =
        treeHash [TreeEntry.mk [97] 9 33188, TreeEntry.mk [98] 7 33188] :=
  ⟨by decide,
    treeHash_insertion_order_independent
      [TreeEntry.mk [98] 7 33188, TreeEntry.mk [97] 9 33188]
      [TreeEntry.mk [97] 9 33188, TreeEntry.mk [98] 7 33188]
      (by decide) (by decide)⟩

/-- After a successful resolution of `node`, the resolution cache maps `node`
to the returned store hash. -/
theorem resolveNode_caches (env : Nat → Option (List MEntry)) (fuel node : Nat)
    (st : ResolveState) (h : Nat) (st1 : ResolveState)
    (hres : resolveNode env fuel node st = some (h, st1)) :
    lookupCache st1.cache node = some h := by
  cases fuel with
  | zero => simp [resolveNode] at hres
  | succ f =>
    simp only [resolveNode] at hres
    split at hres
    · simp only [Option.some.injEq, Prod.mk.injEq] at hres
      obtain ⟨h1, h2⟩ := hres
      subst h1 h2
      assumption
    · split at hres
      · exact absurd hres (by simp)
      · split at hres
        · exact absurd hres (by simp)
        · simp only [Option.some.injEq, Prod.mk.injEq] at hres
          obtain ⟨h1, h2⟩ := hres
          subst h1
          rw [← h2]
          simp [lookupCache]

/-- C7: re-resolving the same manifest node within one import operation hits
the per-operation resolution cache: after a first successful resolution
returning store hash `h` and state `st1`, resolving the same node again
returns the same store hash `h` and leaves the state — in particular the
fetch counter — entirely unchanged (zero additional remote fetches, each
distinct node resolved at most once per operation). -/
theorem resolve_cache_hit (env : Nat → Option (List MEntry)) (fuel fuel2 node : Nat)
    (st : ResolveState) (h : Nat) (st1 : ResolveState)
    (hres : resolveNode env fuel node st = some (h, st1)) (hf : 0 < fuel2) :
    resolveNode env fuel2 node st1 = some (h, st1) := by
  have hc := resolveNode_caches env fuel node st h st1 hres
  cases fuel2 with
  | zero => exact absurd hf (by simp)
  | succ f => simp [resolveNode, hc]

/-- Witness for C7: in a concrete world, the first resolution of node 0
issues one fetch, and re-resolving it returns the same hash with an unchanged
state (same fetch count, cache and batch). -/
theorem resolve_cache_hit_witness :
    resolveNode exampleEnv 1 0 ⟨[], 0, []⟩ = some (5381, ⟨[(0, 5381)], 1, [(5381, [])]⟩)
    ∧ resolveNode exampleEnv 1 0 ⟨[(0, 5381)], 1, [(5381, [])]⟩ =
        some (5381, ⟨[(0, 5381)], 1, [(5381, [])]⟩) :=
  ⟨by decide,
    resolve_cache_hit exampleEnv 1 1 0 ⟨[], 0, []⟩ 5381 ⟨[(0, 5381)], 1, [(5381, [])]⟩
      (by decide) (by decide)⟩

/-- C1: for every import operation — flat-manifest import, tree-manifest
import, and importTree — and every error outcome, the WriteBatch is discarded
rather than committed: the ObjectStore after the operation equals the store
before it, so no partial Tree or Blob is ever committed on an error path. -/
theorem import_atomic_on_error :
    (∀ store op e, (runImportOp store op).1 = Except.error e →
      (runImportOp store op).2 = store)
    ∧ (∀ store fuel chunks e,
        (runImportOp store (importFlatManifestOp fuel chunks)).1 = Except.error e →
        (runImportOp store (importFlatManifestOp fuel chunks)).2 = store)
    ∧ (∀ store env fuel rootNode e,
        (runImportOp store (importTreeManifestOp env fuel rootNode)).1 = Except.error e →
        (runImportOp store (importTreeManifestOp env fuel rootNode)).2 = store)
    ∧ (∀ store us env fuel node e,
        (runImportOp store (importTreeOp us env fuel node)).1 = Except.error e →
        (runImportOp store (importTreeOp us env fuel node)).2 = store) := by
  have key : ∀ store op e, (runImportOp store op).1 = Except.error e →
      (runImportOp store op).2 = store := by
    intro store op e h
    cases op with
    | ok p =>
      obtain ⟨h1, b⟩ := p
      simp [runImportOp] at h
    | error e2 => rfl
  exact ⟨key, fun s f c e h => key s _ e h, fun s en f r e h => key s _ e h,
    fun s us en f n e h => key s _ e h⟩

/-- Witness for C1: a concrete store is unchanged by a flat import that fails
with a HelperError, by a tree-manifest import whose root node is absent, and
by an importTree attempted without tree-manifest support. -/
theorem import_atomic_on_error_witness :
    (runImportOp ⟨[(1, [2])]⟩ (importFlatManifestOp 1 [(⟨0, 1, 1, 2⟩, [104, 105])])).2 =
        ⟨[(1, [2])]⟩
    ∧ (runImportOp ⟨[(1, [2])]⟩ (importTreeManifestOp (fun _ => none) 1 0)).2 = ⟨[(1, [2])]⟩
    ∧ (runImportOp ⟨[(1, [2])]⟩ (importTreeOp none (fun _ => none) 1 0)).2 = ⟨[(1, [2])]⟩ :=
  ⟨import_atomic_on_error.2.1 ⟨[(1, [2])]⟩ 1 [(⟨0, 1, 1, 2⟩, [104, 105])]
      (ImporterError.helperError [104, 105]) (by rfl),
    import_atomic_on_error.2.2.1 ⟨[(1, [2])]⟩ (fun _ => none) 1 0
      ImporterError.notFound (by rfl),
    import_atomic_on_error.2.2.2 ⟨[(1, [2])]⟩ none (fun _ => none) 1 0
      ImporterError.treeManifestUnavailable (by rfl)⟩

/-! ### Flat-versus-tree strategy equivalence: auxiliary lemmas -/

/-- Deduplication only keeps elements of the input. -/
theorem mem_dedupKeepFirst (l : List (List Nat)) (x : List Nat)
    (hx : x ∈ dedupKeepFirst l) : x ∈ l := by
  induction l with
  | nil => simp [dedupKeepFirst] at hx
  | cons a t ih =>
    simp only [dedupKeepFirst, List.mem_cons] at hx
    rcases hx with h | h
    · simp [h]
    · have := ih (List.mem_of_mem_filter h)
      simp [this]

/-- Filtering away an element absent from the list changes nothing. -/
theorem filter_ne_of_notMem (l : List (List Nat)) (n : List Nat)
    (h : ∀ y ∈ l, y ≠ n) : l.filter (fun x => x ≠ n) = l := by
  apply List.filter_eq_self.mpr
  intro a ha
  simpa using h a ha

/-- Deduplicating a non-empty block of `n`s followed by an `n`-free tail
keeps one `n` and deduplicates the tail. -/
theorem dedupKeepFirst_block (bl t : List (List Nat)) (n : List Nat)
    (hne : bl ≠ []) (hall : ∀ x ∈ bl, x = n) (ht : ∀ y ∈ t, y ≠ n) :
    dedupKeepFirst (bl ++ t) = n :: dedupKeepFirst t := by
  have hfilter : (dedupKeepFirst t).filter (fun x => x ≠ n) = dedupKeepFirst t :=
    filter_ne_of_notMem (dedupKeepFirst t) n
      (fun y hy => ht y (mem_dedupKeepFirst t y hy))
  induction bl with
  | nil => exact absurd rfl hne
  | cons a bl' ih =>
    have ha : a = n := hall a (by simp)
    cases bl' with
    | nil =>
      rw [List.cons_append, List.nil_append, dedupKeepFirst, ha, hfilter]
    | cons b bl2 =>
      have hstep := ih (by simp) (fun x hx => hall x (List.mem_cons_of_mem _ hx))
      rw [List.cons_append, dedupKeepFirst, hstep, ha, List.filter_cons]
      simp [hfilter]
      intro y hy
      exact ht y (mem_dedupKeepFirst t y hy)

/-- Every entry in the flat listing of a named object has a path starting
with that object's name. -/
theorem flattenE_shape (e : FsEntry) (n : List Nat) (ph : List (List Nat) × Nat)
    (hm : ph ∈ flattenE n e) : ∃ p, ph.1 = n :: p := by
  cases e with
  | file h =>
    simp only [flattenE, List.mem_singleton] at hm
    exact ⟨[], by rw [hm]⟩
  | dir l =>
    simp only [flattenE, List.mem_map] at hm
    obtain ⟨q, -, hq⟩ := hm
    exact ⟨q.1, by rw [← hq]⟩

mutual

/-- A wellformed named object contributes at least one entry to the flat
listing. -/
theorem flattenE_ne_nil (e : FsEntry) (n : List Nat) (hw : wfE e = true) :
    flattenE n e ≠ [] := by
  cases e with
  | file h => simp [flattenE]
  | dir l =>
    rw [wfE, Bool.and_eq_true] at hw
    obtain ⟨h1, h2⟩ := hw
    have h1b : namesOf l ≠ [] := by
      simp [List.isEmpty_eq_false] at h1
      exact h1
    simp only [flattenE, ne_eq, List.map_eq_nil_iff]
    exact flattenL_ne_nil l h2 h1b

/-- A wellformed non-empty directory has a non-empty flat listing. -/
theorem flattenL_ne_nil (l : FsList) (hw : wfL l = true) (hne : namesOf l ≠ []) :
    flattenL l ≠ [] := by
  cases l with
  | nil => exact absurd rfl hne
  | cons n e rest =>
    rw [wfL, Bool.and_eq_true, Bool.and_eq_true] at hw
    simp only [flattenL, ne_eq, List.append_eq_nil, not_and]
    intro h1
    exact absurd h1 (flattenE_ne_nil e n hw.1.1)

end

/-- The heads of an appended listing. -/
theorem headsOf_append (l1 l2 : List (List (List Nat) × Nat)) :
    headsOf (l1 ++ l2) = headsOf l1 ++ headsOf l2 := by
  simp [headsOf, List.filterMap_append]

/-- Every head in the flat listing of a named object is that name. -/
theorem headsOf_flattenE (e : FsEntry) (n x : List Nat)
    (hx : x ∈ headsOf (flattenE n e)) : x = n := by
  simp only [headsOf, List.mem_filterMap] at hx
  obtain ⟨ph, hmem, hhead⟩ := hx
  obtain ⟨p, hp⟩ := flattenE_shape e n ph hmem
  rw [hp] at hhead
  simp only [List.head?_cons, Option.some.injEq] at hhead
  exact hhead.symm

/-- Every head in the flat listing of a directory is one of its child
names. -/
theorem headsOf_flattenL (l : FsList) (x : List Nat)
    (hx : x ∈ headsOf (flattenL l)) : x ∈ namesOf l := by
  cases l with
  | nil => simp [flattenL, headsOf] at hx
  | cons n e rest =>
    rw [flattenL, headsOf_append] at hx
    rcases List.mem_append.mp hx with h | h
    · rw [headsOf_flattenE e n x h]
      simp [namesOf]
    · simp only [namesOf, List.mem_cons]
      exact Or.inr (headsOf_flattenL rest x h)

/-- The flat listing of a wellformed named object contributes a non-empty
all-`n` block of heads. -/
theorem headsOf_flattenE_ne_nil (e : FsEntry) (n : List Nat) (hw : wfE e = true) :
    headsOf (flattenE n e) ≠ [] := by
  cases hfe : flattenE n e with
  | nil => exact absurd hfe (flattenE_ne_nil e n hw)
  | cons ph rest =>
    have hmem : ph ∈ flattenE n e := by rw [hfe]; simp
    obtain ⟨p, hp⟩ := flattenE_shape e n ph hmem
    simp [headsOf, List.filterMap_cons, hp]

/-- Sub-entry extraction distributes over append. -/
theorem subEntries_append (n : List Nat) (l1 l2 : List (List (List Nat) × Nat)) :
    subEntries n (l1 ++ l2) = subEntries n l1 ++ subEntries n l2 := by
  simp [subEntries, List.filterMap_append]

/-- Stripping the own name from a file's flat listing leaves the single
exhausted-path entry. -/
theorem subEntries_flattenE_file (n : List Nat) (h : Nat) :
    subEntries n (flattenE n (FsEntry.file h)) = [([], h)] := by
  simp [subEntries, flattenE, stripTop, List.filterMap_cons]

/-- Stripping a shared top-level component from a listing recovers the
original listing. -/
theorem subEntries_map_cons (n : List Nat) (L : List (List (List Nat) × Nat)) :
    subEntries n (L.map (fun ph => (n :: ph.1, ph.2))) = L := by
  induction L with
  | nil => rfl
  | cons ph rest ih =>
    simp only [subEntries, List.map_cons, List.filterMap_cons, stripTop, if_pos]
    simp only [subEntries] at ih
    rw [ih]

/-- Stripping the own name from a directory's flat listing recovers the
directory's own flat listing. -/
theorem subEntries_flattenE_dir (n : List Nat) (l : FsList) :
    subEntries n (flattenE n (FsEntry.dir l)) = flattenL l := by
  rw [flattenE]
  exact subEntries_map_cons n (flattenL l)

/-- Entries of a differently named sibling contribute nothing under `m`. -/
theorem subEntries_flattenE_ne (m n : List Nat) (e : FsEntry) (hne : m ≠ n) :
    subEntries m (flattenE n e) = [] := by
  rw [subEntries, List.filterMap_eq_nil_iff]
  intro ph hmem
  obtain ⟨p, hp⟩ := flattenE_shape e n ph hmem
  rw [stripTop, hp]
  have hnm : ¬ (n = m) := fun h => hne h.symm
  simp [hnm]

/-- A directory whose child names avoid `m` contributes nothing under `m`. -/
theorem subEntries_flattenL_notMem (m : List Nat) (l : FsList)
    (hm : m ∉ namesOf l) : subEntries m (flattenL l) = [] := by
  cases l with
  | nil => simp [flattenL, subEntries]
  | cons n e rest =>
    simp only [namesOf, List.mem_cons, not_or] at hm
    rw [flattenL, subEntries_append, subEntries_flattenE_ne m n e hm.1,
      subEntries_flattenL_notMem m rest hm.2]
    simp

/-- Paths in a directory's flat listing are never exhausted. -/
theorem flattenL_path_ne_nil (l : FsList) (ph : List (List Nat) × Nat)
    (hm : ph ∈ flattenL l) : ph.1 ≠ [] := by
  cases l with
  | nil => simp [flattenL] at hm
  | cons n e rest =>
    rw [flattenL] at hm
    rcases List.mem_append.mp hm with h | h
    · obtain ⟨p, hp⟩ := flattenE_shape e n ph h
      simp [hp]
    · exact flattenL_path_ne_nil rest ph h

/-- A directory's flat listing never has the single-file shape. -/
theorem isSingleFile_flattenL (l : FsList) : isSingleFile (flattenL l) = none := by
  cases hfl : flattenL l with
  | nil => rfl
  | cons ph rest =>
    have hne : ph.1 ≠ [] :=
      flattenL_path_ne_nil l ph (by rw [hfl]; simp)
    obtain ⟨p, h⟩ := ph
    cases p with
    | nil => exact absurd rfl hne
    | cons c cs =>
      cases rest with
      | nil => rfl
      | cons q qs => rfl

/-- For a wellformed directory, deduplicating the heads of its flat listing
recovers exactly its child names, in order. -/
theorem dedup_headsOf_flattenL (l : FsList) (hw : wfL l = true) :
    dedupKeepFirst (headsOf (flattenL l)) = namesOf l := by
  cases l with
  | nil => rfl
  | cons n e rest =>
    rw [wfL, Bool.and_eq_true, Bool.and_eq_true] at hw
    obtain ⟨⟨hwE, hnotin⟩, hwL⟩ := hw
    have hnotin2 : n ∉ namesOf rest := by simpa using hnotin
    rw [flattenL, headsOf_append, namesOf]
    rw [dedupKeepFirst_block (headsOf (flattenE n e)) (headsOf (flattenL rest)) n
      (headsOf_flattenE_ne_nil e n hwE)
      (fun x hx => headsOf_flattenE e n x hx)
      (fun y hy hEq => hnotin2 (hEq ▸ headsOf_flattenL rest y hy))]
    rw [dedup_headsOf_flattenL rest hwL]

/-- The bottom-up flat-strategy builder reconstructs exactly the Tree entry
list the recursive tree strategy computes, for every wellformed revision and
sufficient fuel. -/
theorem buildTree_flattenL (l : FsList) (fuel : Nat) (hw : wfL l = true)
    (hf : heightL l + 1 ≤ fuel) :
    buildTree fuel (flattenL l) = entriesOf l := by
  cases fuel with
  | zero => omega
  | succ f =>
    rw [buildTree, dedup_headsOf_flattenL l hw]
    cases l with
    | nil => rfl
    | cons n e rest =>
      rw [wfL, Bool.and_eq_true, Bool.and_eq_true] at hw
      obtain ⟨⟨hwE, hnotin⟩, hwL⟩ := hw
      have hnotin2 : n ∉ namesOf rest := by simpa using hnotin
      rw [namesOf, List.map_cons, entriesOf]
      have hmap : ∀ m, m ∈ namesOf rest →
          subEntries m (flattenL (FsList.cons n e rest)) = subEntries m (flattenL rest) := by
        intro m hm
        have hmn : m ≠ n := fun hEq => hnotin2 (hEq ▸ hm)
        rw [flattenL, subEntries_append, subEntries_flattenE_ne m n e hmn]
        simp
      congr 1
      · -- the head entry produced for child `n`
        have hsub : subEntries n (flattenL (FsList.cons n e rest)) =
            subEntries n (flattenE n e) := by
          rw [flattenL, subEntries_append, subEntries_flattenL_notMem n rest hnotin2]
          simp
        rw [hsub]
        cases e with
        | file h =>
          rw [subEntries_flattenE_file]
          rfl
        | dir l2 =>
          rw [subEntries_flattenE_dir, isSingleFile_flattenL]
          have hfl2 : heightL l2 + 1 ≤ f := by
            have h1 : heightE (FsEntry.dir l2) ≤ heightL (FsList.cons n (FsEntry.dir l2) rest) := by
              rw [heightL]
              exact le_max_left _ _
            rw [heightE] at h1
            omega
          have hrec := buildTree_flattenL l2 f (by
            rw [wfE, Bool.and_eq_true] at hwE
            exact hwE.2) hfl2
          simp only [hrec]
          rfl
      · -- the tail entries, one per remaining child
        have hfr : heightL rest + 1 ≤ f + 1 := by
          have h1 : heightL rest ≤ heightL (FsList.cons n e rest) := by
            rw [heightL]
            exact le_max_right _ _
          omega
        have hbt : buildTree (f + 1) (flattenL rest) = entriesOf rest :=
          buildTree_flattenL rest (f + 1) hwL hfr
        rw [buildTree, dedup_headsOf_flattenL rest hwL] at hbt
        rw [← hbt]
        apply List.map_congr_left
        intro m hm
        rw [hmap m hm]

/-- C2: importing the same revision via the flat-manifest strategy and via
the tree-manifest strategy returns the same root Tree hash, for every
wellformed revision (directories non-empty, sibling names pairwise distinct)
and any fuel bound covering the revision's height. -/
theorem flat_tree_same_root_hash (l : FsList) (fuel : Nat) (hw : wfL l = true)
    (hf : heightL l + 1 ≤ fuel) :
    importFlatManifestRoot fuel (flattenL l) = importTreeManifestRoot l := by
  rw [importFlatManifestRoot, importTreeManifestRoot, buildTree_flattenL l fuel hw hf]

/-- Witness for C2: the spec's worked example (files `a/x`, `a/y`, `b`)
imported by both strategies yields the identical root hash. -/
theorem flat_tree_same_root_hash_witness :
    wfL exampleRevision = true
    ∧ importFlatManifestRoot 2 (flattenL exampleRevision) =
        importTreeManifestRoot exampleRevision :=
  ⟨by decide, flat_tree_same_root_hash exampleRevision 2 (by decide) (by decide)⟩

end HgImporterModel
